import Mathlib

/-!
# Verification of the fashion-trend LOWESS script

Shallow embedding of `src/fashion_local_regression.py`.

The script has three relevant pieces:

* `generate_data` (src lines 15–22): seeds numpy's process-wide generator
  with 42, builds `x = linspace(0, 24, 100)` and
  `y = 10 + 2·sin(2πx/12) + normal(scale=1, size=100)`.
* `perform_lowess` (src lines 24–37): delegates to the external
  statsmodels `lowess` routine with bandwidth fraction `frac` (default 0.2).
  The routine itself is not part of this repository, so the Smoother below
  is modelled from the specification's §4.2 algorithm.
* `main` (src lines 51–58): runs the generator, then the smoother with
  `frac = 0.2`, then plots.

Numbers are modelled over an arbitrary `LinearOrderedField` (the script's
floats), instantiated at `ℚ` for concrete evaluation and at `ℝ` for the
pipeline, where the Gaussian noise stream of numpy's seeded Mersenne
Twister is abstracted as a function of the seed key and stream position.
-/

namespace FashionLowess

/-- Error taxonomy of the spec (§7): parameter errors (bad `frac`, too few
points for the requested neighborhood) and computation errors (degenerate
input making the local linear system singular). -/
inductive LowessError where
  | paramError
  | computationError
deriving DecidableEq, Repr

/-- Modelled from the spec (§4.2 step 2): the tri-cube kernel,
`(1 − d³)³` for normalized distance `d` in `[0,1]`, else `0`. -/
def tricube {α : Type} [LinearOrderedField α] (d : α) : α :=
  if d ≤ 1 then (1 - d ^ 3) ^ 3 else 0

/-- Modelled from the spec (§4.2 step 1): the neighborhood of evaluation
point `xe` — the `k` nearest sample points by x-distance (stable selection:
ties at equal distance keep input order). -/
def neighborhood {α : Type} [LinearOrderedField α]
    (pts : List (α × α)) (k : ℕ) (xe : α) : List (α × α) :=
  (pts.insertionSort (fun p q => |p.1 - xe| ≤ |q.1 - xe|)).take k

/-- Modelled from the spec (§4.2 step 2): attach to each neighbor the
tri-cube weight of its x-distance to `xe` normalized by the distance of
the farthest neighbor in the window. -/
def weighNeighbors {α : Type} [LinearOrderedField α]
    (nbrs : List (α × α)) (xe : α) : List (α × α × α) :=
  let maxd := nbrs.foldr (fun p m => max |p.1 - xe| m) 0
  nbrs.map (fun p => (p.1, p.2, tricube (|p.1 - xe| / maxd)))

/-- Modelled from the spec (§4.2 step 3): weighted degree-1 least-squares
fit of y on x over a list of `(x, y, w)` triples, by the normal equations.
A singular system (weighted x-variance zero, e.g. fewer than 2 distinct
x values) is the spec's degenerate-input computation error.
Returns `(intercept, slope)`. -/
def fitWeightedLine {α : Type} [LinearOrderedField α]
    (pts : List (α × α × α)) : Except LowessError (α × α) :=
  let sw := (pts.map (fun p => p.2.2)).sum
  let sx := (pts.map (fun p => p.2.2 * p.1)).sum
  let sy := (pts.map (fun p => p.2.2 * p.2.1)).sum
  let sxx := (pts.map (fun p => p.2.2 * p.1 ^ 2)).sum
  let sxy := (pts.map (fun p => p.2.2 * p.1 * p.2.1)).sum
  let denom := sw * sxx - sx ^ 2
  if denom = 0 then .error .computationError
  else
    let slope := (sw * sxy - sx * sy) / denom
    .ok ((sy - slope * sx) / sw, slope)

/-- Modelled from the spec (§4.2 steps 1–4): the smoothed value at one
evaluation point `xe` — fit a tri-cube-weighted line over the `k`-nearest
neighborhood and evaluate it at `xe`. -/
def lowessAt {α : Type} [LinearOrderedField α]
    (x y : List α) (k : ℕ) (xe : α) : Except LowessError α :=
  (fitWeightedLine (weighNeighbors (neighborhood (x.zip y) k xe) xe)).map
    (fun beta => beta.1 + beta.2 * xe)

/-- Modelled from the spec (§4.2): smooth at each evaluation point in
turn; any per-point failure aborts the whole run with that error. -/
def smoothAll {α : Type} [LinearOrderedField α]
    (x y : List α) (k : ℕ) : List α → Except LowessError (List (α × α))
  | [] => .ok []
  | xe :: rest =>
    match lowessAt x y k xe with
    | .error e => .error e
    | .ok yh =>
      match smoothAll x y k rest with
      | .error e => .error e
      | .ok tail => .ok ((xe, yh) :: tail)

/-- Modelled from the spec (§4.2, §7), standing in for the external
statsmodels routine called at src line 36: validate `frac ∈ (0,1]` and
`frac·N ≥ 2` (parameter errors), take neighborhood size
`k = ⌈frac·N⌉`, and smooth at each input x in order. The Python default
`frac=0.2` is kept. -/
def perform_lowess {α : Type} [LinearOrderedField α] [FloorRing α]
    (x y : List α) (frac : α := 2 / 10) : Except LowessError (List (α × α)) :=
  if frac ≤ 0 ∨ 1 < frac then .error .paramError
  else if frac * (x.length : α) < 2 then .error .paramError
  else smoothAll x y ⌈frac * (x.length : α)⌉₊ x

/-- The process-wide numpy generator state: the seed key it was last
seeded with and the position reached in that key's draw stream. -/
structure RNG where
  key : ℕ
  pos : ℕ
deriving DecidableEq, Repr

/-- `generate_data` (src lines 15–22) given the noise stream: x is
`linspace(0, 24, 100)`, y is `10 + 2·sin(2πx/12)` plus the scale-1 noise,
elementwise over the 100 indices. -/
noncomputable def generate_data (noise : ℕ → ℝ) : List ℝ × List ℝ :=
  ((List.range 100).map (fun (i : ℕ) => 24 * (i : ℝ) / 99),
   (List.range 100).map (fun (i : ℕ) =>
     10 + 2 * Real.sin (2 * Real.pi * (24 * (i : ℝ) / 99) / 12) + 1 * noise i))

/-- `generate_data` as the state transformer it is on the process-wide
generator: `np.random.seed(42)` replaces the global state by key 42 at
position 0, and drawing the 100 noise values advances that state's
position by 100. `g key pos` is the (abstracted) Gaussian deviate the
Mersenne Twister stream of `key` yields at `pos`. -/
noncomputable def generate_data_run (g : ℕ → ℕ → ℝ) (s : RNG) :
    (List ℝ × List ℝ) × RNG :=
  let s1 : RNG := ⟨42, 0⟩
  let out := generate_data (fun i => g s1.key (s1.pos + i))
  (out, ⟨s1.key, s1.pos + 100⟩)

/-- `main` (src lines 51–58), up to plotting: generate the sample, then
smooth it with `frac = 0.2` passed explicitly (src line 57). -/
noncomputable def main_run (g : ℕ → ℕ → ℝ) (s : RNG) :
    Except LowessError (List (ℝ × ℝ)) × RNG :=
  let dr := generate_data_run g s
  (perform_lowess dr.1.1 dr.1.2 (2 / 10), dr.2)

/-- Concrete sample x used by witnesses: four strictly increasing abscissae. -/
def sampleX : List ℚ := [0, 1, 2, 3]

/-- Concrete sample y with a jump at the last point. -/
def sampleY1 : List ℚ := [0, 0, 0, 1]

/-- Smoothed output of `perform_lowess sampleX sampleY1 1`. -/
def outFracOne : List (ℚ × ℚ) :=
  [(0, 0), (1, 0), (2, 343 / 1198), (3, 221492799 / 251631245)]

/-- Concrete all-zero sample y. -/
def sampleY0 : List ℚ := [0, 0, 0, 0]

/-- Smoothed output of `perform_lowess sampleX sampleY0 1`. -/
def outZero : List (ℚ × ℚ) := [(0, 0), (1, 0), (2, 0), (3, 0)]

/-- Concrete all-one sample y. -/
def sampleY2 : List ℚ := [1, 1, 1, 1]

/-- Smoothed output of `perform_lowess sampleX sampleY2 1`. -/
def outOne : List (ℚ × ℚ) := [(0, 1), (1, 1), (2, 1), (3, 1)]

/-! ## Helper lemmas -/

theorem mem_of_mem_neighborhood {α : Type} [LinearOrderedField α]
    {pts : List (α × α)} {k : ℕ} {xe : α} {p : α × α}
    (hp : p ∈ neighborhood pts k xe) : p ∈ pts := by
  have h1 : p ∈ pts.insertionSort (fun p q => |p.1 - xe| ≤ |q.1 - xe|) :=
    List.take_subset _ _ hp
  exact (List.perm_insertionSort _ pts).mem_iff.mp h1

theorem weighted_sum_x_const {α : Type} [LinearOrderedField α]
    (pts : List (α × α × α)) (c : α) (h : ∀ p ∈ pts, p.1 = c) :
    (pts.map (fun p => p.2.2 * p.1)).sum = c * (pts.map (fun p => p.2.2)).sum := by
  induction pts with
  | nil => simp
  | cons q l ih =>
    simp only [List.map_cons, List.sum_cons]
    rw [h q (List.mem_cons_self q l),
      ih (fun p hp => h p (List.mem_cons_of_mem q hp))]
    ring

theorem weighted_sum_xsq_const {α : Type} [LinearOrderedField α]
    (pts : List (α × α × α)) (c : α) (h : ∀ p ∈ pts, p.1 = c) :
    (pts.map (fun p => p.2.2 * p.1 ^ 2)).sum =
      c ^ 2 * (pts.map (fun p => p.2.2)).sum := by
  induction pts with
  | nil => simp
  | cons q l ih =>
    simp only [List.map_cons, List.sum_cons]
    rw [h q (List.mem_cons_self q l),
      ih (fun p hp => h p (List.mem_cons_of_mem q hp))]
    ring

theorem fitWeightedLine_const {α : Type} [LinearOrderedField α]
    (pts : List (α × α × α)) (c : α) (h : ∀ p ∈ pts, p.1 = c) :
    fitWeightedLine pts = .error .computationError := by
  simp only [fitWeightedLine]
  rw [weighted_sum_x_const pts c h, weighted_sum_xsq_const pts c h,
    if_pos (by ring :
      (pts.map (fun p => p.2.2)).sum * (c ^ 2 * (pts.map (fun p => p.2.2)).sum) -
        (c * (pts.map (fun p => p.2.2)).sum) ^ 2 = 0)]

theorem lowessAt_subsingleton {α : Type} [LinearOrderedField α]
    (x y : List α) (k : ℕ) (xe : α)
    (h : ∀ a ∈ x, ∀ b ∈ x, a = b) :
    lowessAt x y k xe = .error .computationError := by
  have hc : ∀ a ∈ x, a = x.headD 0 := by
    cases x with
    | nil => simp
    | cons a t =>
      intro b hb
      simpa using h b hb a (List.mem_cons_self a t)
  have hw : ∀ p ∈ weighNeighbors (neighborhood (x.zip y) k xe) xe, p.1 = x.headD 0 := by
    intro p hp
    simp only [weighNeighbors, List.mem_map] at hp
    obtain ⟨q, hq, rfl⟩ := hp
    exact hc q.1 (List.of_mem_zip (mem_of_mem_neighborhood hq)).1
  unfold lowessAt
  rw [fitWeightedLine_const _ _ hw]
  rfl

theorem smoothAll_ok_spec {α : Type} [LinearOrderedField α] (x y : List α) (k : ℕ) :
    ∀ (xs : List α) (out : List (α × α)), smoothAll x y k xs = .ok out →
      out.map Prod.fst = xs ∧ ∀ p ∈ out, lowessAt x y k p.1 = .ok p.2 := by
  intro xs
  induction xs with
  | nil =>
    intro out h
    simp only [smoothAll, Except.ok.injEq] at h
    subst h
    simp
  | cons xe rest ih =>
    intro out h
    simp only [smoothAll] at h
    cases h1 : lowessAt x y k xe with
    | error e => rw [h1] at h; simp at h
    | ok yh =>
      rw [h1] at h
      cases h2 : smoothAll x y k rest with
      | error e => rw [h2] at h; simp at h
      | ok tail =>
        rw [h2] at h
        simp only [Except.ok.injEq] at h
        subst h
        obtain ⟨hmap, hmem⟩ := ih tail h2
        refine ⟨by simp [hmap], ?_⟩
        intro p hp
        rcases List.mem_cons.mp hp with rfl | hp2
        · simpa using h1
        · exact hmem p hp2

theorem perform_lowess_ok {α : Type} [LinearOrderedField α] [FloorRing α]
    (x y : List α) (frac : α) (out : List (α × α))
    (h : perform_lowess x y frac = .ok out) :
    smoothAll x y ⌈frac * (x.length : α)⌉₊ x = .ok out := by
  unfold perform_lowess at h
  split_ifs at h
  exact h

/-! ## Claim theorems -/

/-- C2: every `frac` outside `(0,1]`, and every `frac` in `(0,1]` whose implied
neighborhood would have fewer than 2 points (`frac·N < 2`), makes the Smoother
fail immediately with a parameter error; the `Except.error` result carries no
partial output. -/
theorem lowess_param_error {α : Type} [LinearOrderedField α] [FloorRing α]
    (x y : List α) (frac : α)
    (h : frac ≤ 0 ∨ 1 < frac ∨ frac * (x.length : α) < 2) :
    perform_lowess x y frac = .error .paramError := by
  unfold perform_lowess
  by_cases h1 : frac ≤ 0 ∨ 1 < frac
  · rw [if_pos h1]
  · rw [if_neg h1, if_pos (by tauto : frac * (x.length : α) < 2)]

/-- Witness for C2: `frac = 3/2 > 1` on a two-point sample is a parameter error. -/
theorem lowess_param_error_witness :
    ((3 : ℚ) / 2 ≤ 0 ∨ 1 < (3 : ℚ) / 2 ∨
      (3 : ℚ) / 2 * ((([0, 1] : List ℚ).length : ℚ)) < 2) ∧
    perform_lowess ([0, 1] : List ℚ) [0, 0] (3 / 2) = .error .paramError :=
  ⟨by norm_num, lowess_param_error [0, 1] [0, 0] (3 / 2) (by norm_num)⟩

/-- C1: whenever the Smoother returns a curve for a Sample with strictly
increasing x and `frac ∈ (0,1]`, every output pair sits at an input x (in
order) and its smoothed value is exactly the LOWESS estimate at that point:
the tri-cube-weighted (normalized to the farthest of the `k = ⌈frac·N⌉`
nearest neighbors) degree-1 weighted least-squares line evaluated at the
evaluation point. -/
theorem lowess_pointwise_spec {α : Type} [LinearOrderedField α] [FloorRing α]
    (x y : List α) (frac : α) (out : List (α × α))
    (hx : List.Pairwise (· < ·) x) (h0 : 0 < frac) (h1 : frac ≤ 1)
    (hok : perform_lowess x y frac = .ok out) :
    out.map Prod.fst = x ∧
    (∀ p ∈ out, lowessAt x y ⌈frac * (x.length : α)⌉₊ p.1 = .ok p.2) ∧
    (∀ xe : α, lowessAt x y ⌈frac * (x.length : α)⌉₊ xe =
      Except.map (fun beta => beta.1 + beta.2 * xe)
        (fitWeightedLine (weighNeighbors
          (neighborhood (x.zip y) ⌈frac * (x.length : α)⌉₊ xe) xe))) := by
  have hs := smoothAll_ok_spec x y _ x out (perform_lowess_ok x y frac out hok)
  exact ⟨hs.1, hs.2, fun xe => rfl⟩

/-- Witness for C1: the 4-point sample `sampleX`, `sampleY1` with `frac = 1`. -/
theorem lowess_pointwise_spec_witness :
    List.Pairwise (· < ·) sampleX ∧ (0 : ℚ) < 1 ∧ (1 : ℚ) ≤ 1 ∧
    perform_lowess sampleX sampleY1 1 = .ok outFracOne ∧
    (outFracOne.map Prod.fst = sampleX ∧
      (∀ p ∈ outFracOne,
        lowessAt sampleX sampleY1 ⌈(1 : ℚ) * ((sampleX.length : ℚ))⌉₊ p.1 = .ok p.2) ∧
      (∀ xe : ℚ, lowessAt sampleX sampleY1 ⌈(1 : ℚ) * ((sampleX.length : ℚ))⌉₊ xe =
        Except.map (fun beta => beta.1 + beta.2 * xe)
          (fitWeightedLine (weighNeighbors
            (neighborhood (sampleX.zip sampleY1)
              ⌈(1 : ℚ) * ((sampleX.length : ℚ))⌉₊ xe) xe)))) := by
  have hpw : List.Pairwise (· < ·) sampleX := by norm_num [sampleX, List.pairwise_cons]
  have hok : perform_lowess sampleX sampleY1 1 = .ok outFracOne := by
    norm_num [sampleX, sampleY1, outFracOne, perform_lowess, smoothAll, lowessAt,
      neighborhood, weighNeighbors, fitWeightedLine, tricube, List.insertionSort,
      List.orderedInsert, List.zip, List.zipWith, Except.map, abs_of_nonneg, abs_of_nonpos]
  exact ⟨hpw, by norm_num, by norm_num, hok,
    lowess_pointwise_spec sampleX sampleY1 1 outFracOne hpw (by norm_num) (by norm_num) hok⟩

/-- C4: whenever the Smoother returns a curve for a valid Sample (strictly
increasing x) and `frac ∈ (0,1]`, the curve has exactly one `(x, ŷ)` pair per
input point, in particular as many pairs as the Sample has points. -/
theorem lowess_output_length {α : Type} [LinearOrderedField α] [FloorRing α]
    (x y : List α) (frac : α) (out : List (α × α))
    (hx : List.Pairwise (· < ·) x) (h0 : 0 < frac) (h1 : frac ≤ 1)
    (hok : perform_lowess x y frac = .ok out) :
    out.length = x.length ∧ out.map Prod.fst = x := by
  have hs := smoothAll_ok_spec x y _ x out (perform_lowess_ok x y frac out hok)
  exact ⟨by rw [← hs.1]; simp, hs.1⟩

/-- Witness for C4: the 4-point sample smoothed with `frac = 1` has 4 pairs. -/
theorem lowess_output_length_witness :
    List.Pairwise (· < ·) sampleX ∧ (0 : ℚ) < 1 ∧ (1 : ℚ) ≤ 1 ∧
    perform_lowess sampleX sampleY0 1 = .ok outZero ∧
    (outZero.length = sampleX.length ∧ outZero.map Prod.fst = sampleX) := by
  have hpw : List.Pairwise (· < ·) sampleX := by norm_num [sampleX, List.pairwise_cons]
  have hok : perform_lowess sampleX sampleY0 1 = .ok outZero := by
    norm_num [sampleX, sampleY0, outZero, perform_lowess, smoothAll, lowessAt,
      neighborhood, weighNeighbors, fitWeightedLine, tricube, List.insertionSort,
      List.orderedInsert, List.zip, List.zipWith, Except.map, abs_of_nonneg, abs_of_nonpos]
  exact ⟨hpw, by norm_num, by norm_num, hok,
    lowess_output_length sampleX sampleY0 1 outZero hpw (by norm_num) (by norm_num) hok⟩

/-- C5: whenever the Smoother returns a curve for a Sample with strictly
increasing x, the output pairs are in ascending x order: the first components
are strictly increasing, in particular non-decreasing. -/
theorem lowess_output_sorted {α : Type} [LinearOrderedField α] [FloorRing α]
    (x y : List α) (frac : α) (out : List (α × α))
    (hx : List.Pairwise (· < ·) x)
    (hok : perform_lowess x y frac = .ok out) :
    List.Pairwise (· < ·) (out.map Prod.fst) ∧
    List.Pairwise (· ≤ ·) (out.map Prod.fst) := by
  have hs := (smoothAll_ok_spec x y _ x out (perform_lowess_ok x y frac out hok)).1
  rw [hs]
  exact ⟨hx, hx.imp le_of_lt⟩

/-- Witness for C5: the 4-point sample smoothed with `frac = 1` has strictly
increasing output abscissae. -/
theorem lowess_output_sorted_witness :
    List.Pairwise (· < ·) sampleX ∧
    perform_lowess sampleX sampleY2 1 = .ok outOne ∧
    (List.Pairwise (· < ·) (outOne.map Prod.fst) ∧
      List.Pairwise (· ≤ ·) (outOne.map Prod.fst)) := by
  have hpw : List.Pairwise (· < ·) sampleX := by norm_num [sampleX, List.pairwise_cons]
  have hok : perform_lowess sampleX sampleY2 1 = .ok outOne := by
    norm_num [sampleX, sampleY2, outOne, perform_lowess, smoothAll, lowessAt,
      neighborhood, weighNeighbors, fitWeightedLine, tricube, List.insertionSort,
      List.orderedInsert, List.zip, List.zipWith, Except.map, abs_of_nonneg, abs_of_nonpos]
  exact ⟨hpw, hok, lowess_output_sorted sampleX sampleY2 1 outOne hpw hok⟩

/-- Counterexample to C3 as stated: the single-point input `x = [5]` has fewer
than 2 distinct x values, yet the Smoother fails with a parameter error (the
`frac·N ≥ 2` check of §7 is surfaced immediately, before any computation), not
with a computation error. -/
theorem lowess_single_point_error :
    perform_lowess ([5] : List ℚ) [3] 1 = .error .paramError ∧
    perform_lowess ([5] : List ℚ) [3] 1 ≠ .error .computationError := by
  have h : perform_lowess ([5] : List ℚ) [3] 1 = .error .paramError := by
    norm_num [perform_lowess]
  refine ⟨h, fun heq => ?_⟩
  rw [h] at heq
  exact LowessError.noConfusion (Except.error.inj heq)

/-- C3 amended: a Sample whose x values have fewer than 2 distinct values and
which passes the parameter checks (`frac ≤ 1` and `frac·N ≥ 2`, hence `N ≥ 2`
with duplicated x) makes the Smoother fail with a computation error; inputs
with `N < 2` already fail earlier with a parameter error. -/
theorem lowess_degenerate_computation_error {α : Type} [LinearOrderedField α]
    [FloorRing α] (x y : List α) (frac : α)
    (h1 : frac ≤ 1) (h2 : 2 ≤ frac * (x.length : α))
    (hsub : ∀ a ∈ x, ∀ b ∈ x, a = b) :
    perform_lowess x y frac = .error .computationError := by
  have hN0 : (0 : α) ≤ (x.length : α) := Nat.cast_nonneg _
  have hfrac0 : ¬ frac ≤ 0 := by
    intro hle
    nlinarith [mul_nonneg (neg_nonneg.2 hle) hN0]
  unfold perform_lowess
  rw [if_neg (by rintro (h | h); exact hfrac0 h; exact absurd h (not_lt.mpr h1)),
    if_neg (not_lt.mpr h2)]
  cases x with
  | nil =>
    exfalso
    simp only [List.length_nil, Nat.cast_zero, mul_zero] at h2
    linarith
  | cons a t =>
    simp only [smoothAll]
    rw [lowessAt_subsingleton (a :: t) y _ a hsub]

/-- Witness for the amended C3: two equal abscissae pass the parameter checks
with `frac = 1` and fail with a computation error. -/
theorem lowess_degenerate_computation_error_witness :
    (1 : ℚ) ≤ 1 ∧ (2 : ℚ) ≤ 1 * ((([2, 2] : List ℚ).length : ℚ)) ∧
    (∀ a ∈ ([2, 2] : List ℚ), ∀ b ∈ ([2, 2] : List ℚ), a = b) ∧
    perform_lowess ([2, 2] : List ℚ) [0, 1] 1 = .error .computationError := by
  have hsub : ∀ a ∈ ([2, 2] : List ℚ), ∀ b ∈ ([2, 2] : List ℚ), a = b := by
    intro a ha b hb
    simp only [List.mem_cons, List.not_mem_nil, or_false] at ha hb
    rcases ha with rfl | rfl <;> rcases hb with rfl | rfl <;> rfl
  exact ⟨by norm_num, by norm_num, hsub,
    lowess_degenerate_computation_error [2, 2] [0, 1] 1 (by norm_num) (by norm_num) hsub⟩

/-- Counterexample to C8: smoothing `sampleX`, `sampleY1` with `frac = 1.0`
produces smoothed values that do not lie on any single straight line (the
computation is exact rational arithmetic, so no numerical tolerance can
rescue collinearity: the first two smoothed points force the line `ŷ = 0`,
and the third smoothed value is `343/1198 ≠ 0`). -/
theorem lowess_frac_one_not_line :
    perform_lowess sampleX sampleY1 1 = .ok outFracOne ∧
    ¬ ∃ a b : ℚ, ∀ p ∈ outFracOne, p.2 = a + b * p.1 := by
  constructor
  · norm_num [sampleX, sampleY1, outFracOne, perform_lowess, smoothAll, lowessAt,
      neighborhood, weighNeighbors, fitWeightedLine, tricube, List.insertionSort,
      List.orderedInsert, List.zip, List.zipWith, Except.map, abs_of_nonneg, abs_of_nonpos]
  · rintro ⟨a, b, hline⟩
    have h0 := hline (0, 0) (by simp [outFracOne])
    have h1 := hline (1, 0) (by simp [outFracOne])
    have h2 := hline (2, 343 / 1198) (by simp [outFracOne])
    norm_num at h0 h1 h2
    linarith

/-- C8 amended: with `frac = 1.0` the neighborhood at every evaluation point
is the whole Sample (`k = N`, the neighborhood is a permutation of all input
points), and the run reduces to per-point whole-sample tri-cube-weighted
fits; those weights are renormalized at each evaluation point, so the
smoothed values need not be collinear and need not agree with the global
unweighted least-squares fit. -/
theorem lowess_frac_one_uses_all_points {α : Type} [LinearOrderedField α]
    [FloorRing α] (x y : List α) (hN : 2 ≤ x.length) (hlen : y.length = x.length) :
    perform_lowess x y 1 = smoothAll x y x.length x ∧
    ∀ xe : α, (neighborhood (x.zip y) x.length xe).Perm (x.zip y) := by
  constructor
  · have hcast : (2 : α) ≤ 1 * (x.length : α) := by
      rw [one_mul]; exact_mod_cast hN
    unfold perform_lowess
    rw [if_neg (by norm_num : ¬((1 : α) ≤ 0 ∨ (1 : α) < 1)), if_neg (not_lt.mpr hcast),
      one_mul, Nat.ceil_natCast]
  · intro xe
    have hlz : (x.zip y).length = x.length := by
      rw [List.length_zip, hlen, min_self]
    unfold neighborhood
    rw [List.take_of_length_le (by simp [List.length_insertionSort, hlz])]
    exact List.perm_insertionSort _ _

/-- Witness for the amended C8: a two-point sample with `frac = 1`. -/
theorem lowess_frac_one_uses_all_points_witness :
    2 ≤ ([0, 1] : List ℚ).length ∧ ([5, 7] : List ℚ).length = ([0, 1] : List ℚ).length ∧
    (perform_lowess ([0, 1] : List ℚ) [5, 7] 1 =
      smoothAll ([0, 1] : List ℚ) [5, 7] (([0, 1] : List ℚ).length) [0, 1] ∧
    ∀ xe : ℚ, (neighborhood (([0, 1] : List ℚ).zip ([5, 7] : List ℚ))
        (([0, 1] : List ℚ).length) xe).Perm (([0, 1] : List ℚ).zip [5, 7])) :=
  ⟨by norm_num, by norm_num,
    lowess_frac_one_uses_all_points [0, 1] [5, 7] (by norm_num) (by norm_num)⟩

theorem getD_map_range (n : ℕ) (f : ℕ → ℝ) (i : ℕ) (h : i < n) :
    ((List.range n).map f).getD i 0 = f i := by
  rw [List.getD_eq_getElem?_getD, List.getElem?_map, List.getElem?_range h]
  rfl

/-- C6: the Data Generator returns exactly 100 x values, evenly spaced with
step 24/99 from 0 to 24 inclusive (hence strictly increasing), and for each
index the y value is `10 + 2·sin(2π·x/12)` plus the seeded noise draw at that
index scaled by 1.0 (the noise stream itself, numpy's seeded Gaussian
generator, is abstracted as the function `noise`). -/
theorem generate_data_spec (noise : ℕ → ℝ) :
    (generate_data noise).1.length = 100 ∧
    (generate_data noise).2.length = 100 ∧
    (generate_data noise).1.getD 0 0 = 0 ∧
    (generate_data noise).1.getD 99 0 = 24 ∧
    List.Chain' (fun a b => b - a = 24 / 99) (generate_data noise).1 ∧
    List.Chain' (· < ·) (generate_data noise).1 ∧
    ∀ i : Fin 100,
      (generate_data noise).1.getD i 0 = 24 * (i : ℝ) / 99 ∧
      (generate_data noise).2.getD i 0 =
        10 + 2 * Real.sin (2 * Real.pi * ((generate_data noise).1.getD i 0) / 12) +
          1 * noise i := by
  have hx : (generate_data noise).1 =
      (List.range 100).map (fun (i : ℕ) => 24 * (i : ℝ) / 99) := rfl
  refine ⟨by simp [generate_data], by simp [generate_data], ?_, ?_, ?_, ?_, ?_⟩
  · rw [hx, getD_map_range 100 _ 0 (by norm_num)]
    norm_num
  · rw [hx, getD_map_range 100 _ 99 (by norm_num)]
    norm_num
  · rw [hx, List.chain'_map]
    exact (List.chain'_range_succ _ 99).mpr (fun m hm => by push_cast; ring)
  · rw [hx, List.chain'_map]
    refine (List.chain'_range_succ _ 99).mpr (fun m hm => ?_)
    have h0 : (0 : ℝ) ≤ (m : ℝ) := Nat.cast_nonneg m
    push_cast
    linarith
  · intro i
    have hy1 : (generate_data noise).1.getD i 0 = 24 * (i : ℝ) / 99 := by
      rw [hx, getD_map_range 100 _ i i.isLt]
    refine ⟨hy1, ?_⟩
    have hy2 : (generate_data noise).2 =
        (List.range 100).map (fun (j : ℕ) =>
          10 + 2 * Real.sin (2 * Real.pi * (24 * (j : ℝ) / 99) / 12) + 1 * noise j) := rfl
    rw [hy1, hy2, getD_map_range 100 _ i i.isLt]

/-- C7: the Data Generator's output is identical across runs regardless of
the prior process-wide generator state, because the call re-seeds that state
with the fixed constant 42 before drawing: the returned `(x, y)` pair is a
function of the fixed constants and of the generator algorithm alone. -/
theorem generate_data_run_deterministic (g : ℕ → ℕ → ℝ) (s t : RNG) :
    (generate_data_run g s).1 = (generate_data_run g t).1 := rfl

/-- Counterexample to C9: calling the Data Generator from global generator
state `⟨0, 0⟩` does not leave that state unchanged — the call re-seeds the
process-wide generator with the hard-coded constant 42 and advances it, so
the state after the call is `⟨42, 100⟩`. The generator also takes no seed
argument: the seed is the literal 42 inside the call. -/
theorem generate_data_run_mutates_state :
    (generate_data_run (fun _ _ => 0) ⟨0, 0⟩).2 ≠ (⟨0, 0⟩ : RNG) := by
  have h2 : (generate_data_run (fun _ _ => 0) ⟨0, 0⟩).2 = ⟨42, 100⟩ := rfl
  rw [h2]
  decide

/-- C9 amended: the Data Generator does not take a seed parameter; it
re-seeds the process-wide generator with the fixed constant 42 at each call
and draws 100 values, leaving the global state at the fixed post-draw state
`⟨42, 100⟩` whatever it was before (so it mutates global state whenever the
prior state differs), while its returned data is independent of the prior
global state. -/
theorem generate_data_run_reseeds (g : ℕ → ℕ → ℝ) (s : RNG) :
    (generate_data_run g s).2 = ⟨42, 100⟩ ∧
    (generate_data_run g s).1 = (generate_data_run g ⟨0, 0⟩).1 :=
  ⟨rfl, rfl⟩

/-- C10: the pipeline entry point invokes the Smoother with bandwidth
fraction 0.2, and 0.2 is also the Smoother's default parameter value (calling
`perform_lowess` without a `frac` argument is the same as passing 0.2). -/
theorem main_uses_default_frac (g : ℕ → ℕ → ℝ) (s : RNG) :
    (main_run g s).1 =
      perform_lowess (generate_data_run g s).1.1 (generate_data_run g s).1.2 (0.2 : ℝ) ∧
    ∀ u v : List ℝ, perform_lowess u v = perform_lowess u v (0.2 : ℝ) := by
  have h : (2 : ℝ) / 10 = 0.2 := by norm_num
  constructor
  · show perform_lowess (generate_data_run g s).1.1 (generate_data_run g s).1.2
      ((2 : ℝ) / 10) = _
    rw [h]
  · intro u v
    show perform_lowess u v ((2 : ℝ) / 10) = _
    rw [h]

end FashionLowess
